import Mathlib

/-!
Verification of `scripts/create_adversarial_dataset.py`.

The script perturbs a tab-separated heldout corpus of records
(input sequence, output sequence, attention/alignment sequence) by randomly
transposing alignment positions (`swap`), filters degenerate records
(`remove_doubles`), extracts lookup tables from a training corpus
(`load_tables`) and replays the output chain under the perturbed alignment
(`update_output`).

Modelling conventions:
* Python strings are Lean `String`; `str.split()` is `splitWS`;
  `" ".join` is `joinWS`; `"".join` is `strJoin`.
* `Levenshtein.distance` is `levS`, a row-by-row dynamic program computing
  the standard unit-cost edit distance (insert, delete, substitute).
* The random draws of `random.sample(range(n), 2)` are supplied explicitly:
  a call to `swap` is modelled by `swapRun`, which consumes a trace of
  attempts, each attempt being the list of `level` sampled index pairs.
  `swapRun` returns `none` when the trace is exhausted without the
  acceptance test succeeding (the real loop would still be spinning).
  Crucially, as in the source, the working list is carried over from one
  attempt to the next (`old_attention = attention` aliases the list).
* A heldout record is a `Record` with the three tab-separated fields.
* Failure by `IndexError` / `KeyError` / `ValueError` is modelled with
  `Option` / `Except ReplayError`.
-/

/-- Python `str.split()` with no argument: splits on runs of whitespace and
drops empty fields.  `acc` is the current token, accumulated in reverse. -/
def splitWSAux : List Char → List Char → List String
  | [], acc => if acc.isEmpty then [] else [⟨acc.reverse⟩]
  | c :: cs, acc =>
    if c.isWhitespace then
      if acc.isEmpty then splitWSAux cs [] else ⟨acc.reverse⟩ :: splitWSAux cs []
    else splitWSAux cs (c :: acc)

/-- Python `s.split()`. -/
def splitWS (s : String) : List String := splitWSAux s.data []

/-- Python `" ".join(l)`. -/
def joinWS : List String → String
  | [] => ""
  | [t] => t
  | t :: ts => t ++ " " ++ joinWS ts

/-- Python `"".join(l)`. -/
def strJoin : List String → String
  | [] => ""
  | t :: ts => t ++ strJoin ts

/-- One cell row of the Levenshtein dynamic program: given the previous row
(suffix `p0 :: ps`), the remaining text `b :: t` and the cell to the left,
produce the remaining cells of the current row. -/
def levRowAux (a : Char) : List Char → List Nat → Nat → List Nat
  | b :: t, p0 :: ps, left =>
    let d := min (min (left + 1) (ps.headD 0 + 1)) (p0 + (if a = b then 0 else 1))
    d :: levRowAux a t ps d
  | _, _, _ => []

/-- Next full row of the Levenshtein dynamic program after consuming `a`. -/
def levRow (a : Char) (t : List Char) (prev : List Nat) : List Nat :=
  (prev.headD 0 + 1) :: levRowAux a t prev (prev.headD 0 + 1)

/-- Unit-cost Levenshtein edit distance (insertions, deletions,
substitutions), computed by the standard row dynamic program; this is what
`Levenshtein.distance` computes on the concatenated attention strings. -/
def lev (s t : List Char) : Nat :=
  (s.foldl (fun prev a => levRow a t prev) (List.range (t.length + 1))).getLastD 0

/-- `Levenshtein.distance` on Python strings. -/
def levS (s t : String) : Nat := lev s.data t.data

/-- Digit run of Python `int(s)`: `acc` is the value of the digits read so
far; any non-digit character is a `ValueError`. -/
def digitsToNat : List Char → Nat → Option Nat
  | [], acc => some acc
  | c :: cs, acc =>
    if c.isDigit then digitsToNat cs (acc * 10 + (c.toNat - 48)) else none

/-- Python `int(s)` on the index tokens of an alignment: an optional minus
sign followed by a non-empty run of digits (surrounding whitespace and an
explicit plus sign are not needed for index tokens and are not modelled). -/
def pyInt (s : String) : Option Int :=
  match s.data with
  | [] => none
  | '-' :: cs =>
    if cs.isEmpty then none else (digitsToNat cs 0).map (fun n => -(n : Int))
  | cs => (digitsToNat cs 0).map (fun n => (n : Int))

/-- Python list indexing `l[i]`: negative indices count from the end and an
out-of-range index is an `IndexError` (`none`). -/
def pyGet (l : List String) (i : Int) : Option String :=
  let j : Int := if i < 0 then (l.length : Int) + i else i
  if 0 ≤ j then l.get? j.toNat else none

/-- One heldout line split on tabs: `line[0]` is the input sequence,
`line[1]` the output sequence, and `line[2]` (also `line[-1]`) the
attention/alignment sequence. -/
structure Record where
  input : String
  output : String
  attention : String
deriving DecidableEq

/-- Writing `tables[tn][k] = v` into a dictionary-of-dictionaries that is
read back only through lookups: the updated mapping. -/
def updTable (tables : String → String → Option String) (tn k v : String) :
    String → String → Option String :=
  fun name key => if name = tn ∧ key = k then some v else tables name key

/-- Loop body of `load_tables`: fold the whitespace-split mappings into the
`defaultdict(dict)`; a mapping with fewer than five fields is a fatal
`IndexError` (`none`). -/
def load_tables_go (tables : String → String → Option String) :
    List (List String) → Option (String → String → Option String)
  | [] => some tables
  | m :: ms =>
    match m.get? 1, m.get? 0, m.get? 4 with
    | some tn, some k, some v => load_tables_go (updTable tables tn k v) ms
    | _, _, _ => none

/-- `load_tables`: read the first 64 lines of the training file, split each
on whitespace, and store `field 4` under key `field 0` in the table named by
`field 1`.  The result maps a table name and a key to the stored value;
unknown table names behave as the empty table, as with `defaultdict(dict)`. -/
def load_tables (lines : List String) :
    Option (String → String → Option String) :=
  load_tables_go (fun _ _ => none) ((lines.take 64).map splitWS)

/-- Table identifiers (field 1) occurring in the first 64 training lines. -/
def tableIds (lines : List String) : List String :=
  ((lines.take 64).map splitWS).filterMap (fun m => m.get? 1)

/-- Python `old[j], old[k] = old[k], old[j]`: both reads happen before both
writes.  Out-of-range indices (which `random.sample(range(n), 2)` never
produces) leave the list unchanged. -/
def swapAt (l : List String) (j k : Nat) : List String :=
  match l[j]?, l[k]? with
  | some a, some b => (l.set j b).set k a
  | _, _ => l

/-- One attempt of the `swap` loop: apply the `level` sampled transpositions
in order. -/
def attempt : List String → List (Nat × Nat) → List String
  | s, [] => s
  | s, p :: ps => attempt (swapAt s p.1 p.2) ps

/-- The retry loop of `swap`, with the random draws supplied as a trace of
attempts.  Each iteration records the concatenation of the current list,
applies one attempt of transpositions in place, and accepts when the edit
distance between the two concatenations is `level + 1`.  As in the source,
`old_attention` aliases `attention`, so a rejected attempt is carried over
into the next iteration; `none` means the trace ran out with the loop still
spinning. -/
def swapRun (attention : List String) (level : Nat) :
    List (List (Nat × Nat)) → Option (List String)
  | [] => none
  | picks :: rest =>
    let old_string := strJoin attention
    let after := attempt attention picks
    if levS old_string (strJoin after) = level + 1 then some after
    else swapRun after level rest

/-- A trace that `swap(attention, level)` on a list of length `n` can
actually produce: every attempt consists of `level` draws of
`random.sample(range(n), 2)`, two distinct valid indices. -/
def validTrace (n level : Nat) (trace : List (List (Nat × Nat))) : Prop :=
  ∀ picks ∈ trace, picks.length = level ∧
    ∀ p ∈ picks, p.1 ≠ p.2 ∧ p.1 < n ∧ p.2 < n

instance validTrace.dec (n level : Nat) (trace : List (List (Nat × Nat))) :
    Decidable (validTrace n level trace) :=
  inferInstanceAs (Decidable (∀ picks ∈ trace, picks.length = level ∧
    ∀ p ∈ picks, p.1 ≠ p.2 ∧ p.1 < n ∧ p.2 < n))

/-- Python `attention[-1:]`. -/
def lastSlice (l : List String) : List String := l.drop (l.length - 1)

/-- Body of the `add_attacks` loop for one line, with the realised outcome
of the `swap` call supplied as `swapFn` (the random transpositions are
resolved by the oracle; `swapRun` models `swap` itself). -/
def add_attacks_line (swapFn : List String → List String)
    (swap_input ignore_output_eos : Bool) (line : Record) : Record :=
  let attention := splitWS line.attention
  let swapped :=
    if !swap_input then
      attention.take 1 ++ swapFn ((attention.drop 1).dropLast)
    else
      swapFn attention.dropLast
  let attention2 :=
    if !ignore_output_eos then swapped ++ lastSlice attention else swapped
  { line with attention := joinWS attention2 }

/-- The `for i, line in enumerate(heldout)` loop of `add_attacks`; the
realised `swap` outcome may differ per line, hence `swapFn` is indexed. -/
def add_attacks_go (swapFn : Nat → List String → List String)
    (swap_input ignore_output_eos : Bool) : Nat → List Record → List Record
  | _, [] => []
  | i, line :: rest =>
    add_attacks_line (swapFn i) swap_input ignore_output_eos line ::
      add_attacks_go swapFn swap_input ignore_output_eos (i + 1) rest

/-- `add_attacks`: replace the attention field of every heldout line by the
perturbed alignment. -/
def add_attacks (swapFn : Nat → List String → List String)
    (swap_input ignore_output_eos : Bool) (heldout : List Record) :
    List Record :=
  add_attacks_go swapFn swap_input ignore_output_eos 0 heldout

/-- Working-slice selection exactly as claim C3 words it (second conjunct of
the refinement comparison; the executable `add_attacks_line` above is the
translation of the source): with `swap_input` the slice is the whole
alignment sequence when `ignore_output_eos` is set, and all tokens but the
last otherwise. -/
def add_attacks_line_asclaimed (swapFn : List String → List String)
    (swap_input ignore_output_eos : Bool) (line : Record) : Record :=
  let attention := splitWS line.attention
  let slice :=
    if !swap_input then (attention.drop 1).dropLast
    else if ignore_output_eos then attention
    else attention.dropLast
  let swapped :=
    if !swap_input then attention.take 1 ++ swapFn slice else swapFn slice
  let attention2 :=
    if !ignore_output_eos then swapped ++ lastSlice attention else swapped
  { line with attention := joinWS attention2 }

/-- Interior of the input sequence: `line[0].split()[1:-1]`. -/
def interiorOf (line : Record) : List String :=
  ((splitWS line.input).drop 1).dropLast

/-- `remove_doubles`: keep a line unless the interior of its input sequence
has exactly one distinct token value (`len(set(...)) != 1`). -/
def remove_doubles (heldout : List Record) : List Record :=
  heldout.filter (fun line => (interiorOf line).dedup.length != 1)

/-- The unhandled exceptions that can abort `update_output`:
`IndexError` on `output_sequence[0]`, on `attention[j]` and on
`input_sequence[int(attention[j])]`, `ValueError` in `int(...)`, and the
`KeyError` of `table[word]` (the `defaultdict` makes `tables[...]` itself
total). -/
inductive ReplayError where
  | outputIndex
  | attnIndex
  | attnParse
  | inputIndex
  | missingKey
deriving DecidableEq

/-- Selection of the table for replay step `j`:
`tables[input_sequence[int(attention[j])]]` up to, but not including, the
table lookup, which never fails thanks to the `defaultdict`. -/
def stepTable (input attention : List String) (j : Nat) :
    Except ReplayError String :=
  match attention.get? j with
  | none => .error .attnIndex
  | some aj =>
    match pyInt aj with
    | none => .error .attnParse
    | some idx =>
      match pyGet input idx with
      | none => .error .inputIndex
      | some tn => .ok tn

/-- Whether the attention-indexing part of replay step `j` goes through
(the alignment token exists, parses as an integer, and indexes into the
input sequence). -/
def stepOk (input attn : List String) (j : Nat) : Bool :=
  match stepTable input attn j with
  | .ok _ => true
  | .error _ => false

/-- The replay loop of `update_output`: for the remaining step indices `js`,
look up the table via the attention, then the next word keyed by the current
word, collecting the words appended to `new_output`. -/
def replayGo (tables : String → String → Option String)
    (input attention : List String) :
    List Nat → String → Except ReplayError (List String)
  | [], _ => .ok []
  | j :: js, word =>
    match stepTable input attention j with
    | .error e => .error e
    | .ok tn =>
      match tables tn word with
      | none => .error .missingKey
      | some next =>
        match replayGo tables input attention js next with
        | .error e => .error e
        | .ok rest => .ok (next :: rest)

/-- The word reached after walking the replay chain through the step indices
`js`, `none` as soon as any step is undefined (used to state where the chain
breaks). -/
def chainWord (tables : String → String → Option String)
    (input attention : List String) : List Nat → String → Option String
  | [], word => some word
  | j :: js, word =>
    match stepTable input attention j with
    | .ok tn => (tables tn word).bind (chainWord tables input attention js)
    | .error _ => none

/-- The token list `new_output` that `update_output` builds for one line:
the seed word `output_sequence[0]` followed by the replayed words for steps
`j = 1 .. len(input_sequence) - 2`. -/
def new_output_tokens (tables : String → String → Option String)
    (line : Record) : Except ReplayError (List String) :=
  let input := splitWS line.input
  match (splitWS line.output).head? with
  | none => .error .outputIndex
  | some word =>
    match replayGo tables input (splitWS line.attention)
        (List.range' 1 (input.length - 2)) word with
    | .error e => .error e
    | .ok rest => .ok (word :: rest)

/-- Body of the `update_output` loop for one line: replace the output field
by the joined `new_output`. -/
def update_output_line (tables : String → String → Option String)
    (line : Record) : Except ReplayError Record :=
  match new_output_tokens tables line with
  | .error e => .error e
  | .ok toks => .ok { line with output := joinWS toks }

/-- `update_output`: replay every line in order; the first uncaught
exception aborts the whole run (the `ignore_output_eos` argument is taken
but never used, as in the source). -/
def update_output (tables : String → String → Option String)
    (ignore_output_eos : Bool) : List Record → Except ReplayError (List Record)
  | [] => .ok []
  | line :: rest =>
    match update_output_line tables line with
    | .error e => .error e
    | .ok line2 =>
      match update_output tables ignore_output_eos rest with
      | .error e => .error e
      | .ok rest2 => .ok (line2 :: rest2)

/-- A concrete tables mapping used in the concrete evaluations below:
table `"u"` maps `"v1"` to `"v2"` and table `"t"` maps `"v2"` to `"v3"`. -/
def tablesEx4 : String → String → Option String := fun tn w =>
  if tn = "u" ∧ w = "v1" then some "v2"
  else if tn = "t" ∧ w = "v2" then some "v3" else none

/-- Pulling the element at index `k` to the front while writing `x` in its
place permutes a cons. -/
theorem cons_set_perm : ∀ (xs : List String) (k : Nat) (x b : String),
    xs[k]? = some b → (b :: xs.set k x).Perm (x :: xs)
  | [], _, _, _, h => by simp at h
  | y :: ys, 0, x, b, h => by
    simp at h
    subst h
    exact List.Perm.swap x y ys
  | y :: ys, k + 1, x, b, h => by
    simp at h
    exact (List.Perm.swap y b (ys.set k x)).trans
      (((cons_set_perm ys k x b h).cons y).trans (List.Perm.swap x y ys))

/-- Exchanging the values at two indices is a permutation. -/
theorem set_set_perm : ∀ (l : List String) (j k : Nat) (a b : String),
    l[j]? = some a → l[k]? = some b → ((l.set j b).set k a).Perm l
  | [], _, _, _, _, hj, _ => by simp at hj
  | x :: xs, 0, 0, a, b, hj, hk => by
    simp at hj hk
    subst hj
    exact List.Perm.refl _
  | x :: xs, 0, k + 1, a, b, hj, hk => by
    simp at hj hk
    subst hj
    exact cons_set_perm xs k x b hk
  | x :: xs, j + 1, 0, a, b, hj, hk => by
    simp at hj hk
    subst hk
    exact cons_set_perm xs j x a hj
  | x :: xs, j + 1, k + 1, a, b, hj, hk => by
    simp at hj hk
    exact (set_set_perm xs j k a b hj hk).cons x

/-- `swapAt` permutes the list, whatever the indices. -/
theorem swapAt_perm (l : List String) (j k : Nat) : (swapAt l j k).Perm l := by
  unfold swapAt
  split
  · next a b hj hk => exact set_set_perm l j k a b hj hk
  all_goals exact List.Perm.refl l

/-- One attempt of the swap loop permutes the working list. -/
theorem attempt_perm : ∀ (ps : List (Nat × Nat)) (s : List String),
    (attempt s ps).Perm s
  | [], s => List.Perm.refl s
  | p :: ps, s =>
    (attempt_perm ps (swapAt s p.1 p.2)).trans (swapAt_perm s p.1 p.2)

/-- Whatever `swap` returns is a permutation of the list it was given, even
though rejected attempts are carried over. -/
theorem swapRun_perm : ∀ (tr : List (List (Nat × Nat))) (s : List String)
    (lvl : Nat) (r : List String), swapRun s lvl tr = some r → r.Perm s
  | [], s, lvl, r, h => by simp [swapRun] at h
  | picks :: rest, s, lvl, r, h => by
    simp only [swapRun] at h
    split at h
    · cases h
      exact attempt_perm picks s
    · exact (swapRun_perm rest (attempt s picks) lvl r h).trans
        (attempt_perm picks s)

/-- A list that is a permutation of a two-element constant list is that
list. -/
theorem perm_pair_eq {s : List String} {a : String} (h : s.Perm [a, a]) :
    s = [a, a] := by
  have hrep : s = List.replicate 2 a :=
    List.eq_replicate_iff.mpr ⟨by simpa using h.length_eq,
      fun b hb => by simpa using h.subset hb⟩
  simpa [List.replicate] using hrep

/-- On an all-identical working slice every attempt leaves the joined
string unchanged, so the acceptance test `distance = level + 1` never
succeeds and the loop consumes any trace without returning. -/
theorem swapRun_ones : ∀ (tr : List (List (Nat × Nat))) (s : List String),
    s.Perm ["1", "1"] → swapRun s 1 tr = none
  | [], _, _ => rfl
  | picks :: rest, s, hp => by
    have hs : s = ["1", "1"] := perm_pair_eq hp
    subst hs
    have hafter : attempt ["1", "1"] picks = ["1", "1"] :=
      perm_pair_eq (attempt_perm picks ["1", "1"])
    simp only [swapRun, hafter]
    rw [if_neg (by decide)]
    exact swapRun_ones rest ["1", "1"] (List.Perm.refl _)

/-- C1: refuted as stated; the code is at fault.  The claim (and the spec)
say a rejected attempt is discarded and the transposition sequence restarts
from the unmodified original slice, so that the returned slice is at edit
distance exactly `level + 1` from the original.  In the source
`old_attention = attention` aliases the list, so a rejected attempt is kept
as the baseline of the next one.  Concretely, for
`swap(["1","2","3","4"], 2)` (a feasible call: `level = 2 ≥ 1` and slice
length `4 > 2`), the draws `(0,1),(0,2)` give `["3","1","2","4"]` at
distance 2, rejected; the draws `(0,1),(2,3)` then give `["1","3","4","2"]`
at distance 3 from the *mutated* baseline, accepted — yet the returned
slice is at edit distance 2, not `level + 1 = 3`, from the original. -/
theorem swap_retains_rejected_mutations :
    validTrace 4 2 [[(0, 1), (0, 2)], [(0, 1), (2, 3)]] ∧
    swapRun ["1", "2", "3", "4"] 2 [[(0, 1), (0, 2)], [(0, 1), (2, 3)]] =
      some ["1", "3", "4", "2"] ∧
    levS (strJoin ["1", "2", "3", "4"]) (strJoin ["1", "3", "4", "2"]) = 2 ∧
    (2 : Nat) ≠ 2 + 1 := by decide

/-- C5: every terminating call to `swap` returns a list of the same length
that is a permutation of its argument; transpositions neither create, drop
nor alter tokens. -/
theorem swap_is_permutation (att : List String) (lvl : Nat)
    (tr : List (List (Nat × Nat))) (r : List String)
    (h : swapRun att lvl tr = some r) :
    r.length = att.length ∧ r.Perm att :=
  ⟨(swapRun_perm tr att lvl r h).length_eq, swapRun_perm tr att lvl r h⟩

theorem swap_is_permutation_witness :
    (["2", "1"] : List String).length = (["1", "2"] : List String).length ∧
    (["2", "1"] : List String).Perm ["1", "2"] :=
  swap_is_permutation ["1", "2"] 1 [[(0, 1)]] ["2", "1"] (by decide)

/-- C7: there are inputs on which the acceptance loop of `swap` can never
exit: on the all-identical slice `["1","1"]` with `level = 1`, every
transposition sequence leaves the joined string `"11"` unchanged, so the
measured edit distance is 0, never `level + 1 = 2`, and every finite trace
of random draws is consumed without returning. -/
theorem swap_infeasible_level_diverges (tr : List (List (Nat × Nat))) :
    swapRun ["1", "1"] 1 tr = none :=
  swapRun_ones tr ["1", "1"] (List.Perm.refl _)

/-- C2: refuted as stated.  On the training file whose first 64 lines are
exactly `"a t1 x x x"` and `"b t1 x x y"`, the value stored for key `"a"`
is field index 4 of the first line, which is `"x"`, not the `"y"` the claim
asserts. -/
theorem load_tables_roundtrip_counterexample :
    (load_tables ["a t1 x x x", "b t1 x x y"]).map (fun T => T "t1" "a") =
      some (some "x") ∧
    some (some ("x" : String)) ≠ some (some ("y" : String)) :=
  ⟨rfl, by decide⟩

/-- C2 amended: on that file, table `"t1"` maps `"a"` to `"x"` and `"b"` to
`"y"` and nothing else; the value is always whitespace-split field index 4,
the key field 0, and the table identifier field 1. -/
theorem load_tables_roundtrip_amended (k : String) :
    (load_tables ["a t1 x x x", "b t1 x x y"]).map (fun T => T "t1" k) =
      some (if k = "b" then some "y" else if k = "a" then some "x"
            else none) := by
  have h : load_tables ["a t1 x x x", "b t1 x x y"] =
      some (updTable (updTable (fun _ _ => none) "t1" "a" "x")
        "t1" "b" "y") := rfl
  rw [h, Option.map_some']
  by_cases hb : k = "b" <;> by_cases ha : k = "a" <;>
    simp [updTable, hb, ha]

/-- C3: refuted as stated.  With `swap_input` and `ignore_output_eos` both
set, the claim says the working slice passed to `swap` is the entire
alignment sequence; the source always passes `attention[:-1]`
(`ignore_output_eos` only controls whether the final token is appended back
to the emitted alignment, the alignment field still carries the EOS token at
this point).  Taking the realised swap outcome to be a reversal makes the
difference observable on the alignment `"0 1 2 3"`. -/
theorem add_attacks_slice_counterexample :
    add_attacks_line List.reverse true true ⟨"", "", "0 1 2 3"⟩ =
      ⟨"", "", "2 1 0"⟩ ∧
    add_attacks_line_asclaimed List.reverse true true ⟨"", "", "0 1 2 3"⟩ =
      ⟨"", "", "3 2 1 0"⟩ ∧
    (⟨"", "", "2 1 0"⟩ : Record) ≠ ⟨"", "", "3 2 1 0"⟩ := by decide

/-- C3 amended: the working slice passed to `swap` is all alignment tokens
but the first and the last when `swap_input` is false, and all tokens but
the last whenever `swap_input` is true — independently of
`ignore_output_eos`, which only decides whether the original last token is
appended back to the emitted alignment. -/
theorem add_attacks_slice_characterization
    (swapFn : List String → List String) (swap_input ignore_output_eos : Bool)
    (line : Record) :
    add_attacks_line swapFn swap_input ignore_output_eos line =
      { line with attention := joinWS (
          (if swap_input then [] else (splitWS line.attention).take 1) ++
          swapFn (if swap_input then (splitWS line.attention).dropLast
                  else ((splitWS line.attention).drop 1).dropLast) ++
          (if ignore_output_eos then []
           else lastSlice (splitWS line.attention))) } := by
  cases swap_input <;> cases ignore_output_eos <;>
    simp [add_attacks_line, List.append_assoc]

/-- Positions of `add_attacks_go` keep the input and output fields of the
line at the same position of its argument. -/
theorem add_attacks_go_fields (swapFn : Nat → List String → List String)
    (si ioe : Bool) : ∀ (h : List Record) (i n : Nat),
    ((add_attacks_go swapFn si ioe i h)[n]?).map Record.input =
      (h[n]?).map Record.input ∧
    ((add_attacks_go swapFn si ioe i h)[n]?).map Record.output =
      (h[n]?).map Record.output
  | [], _, _ => by simp [add_attacks_go]
  | r :: rest, i, 0 => by simp [add_attacks_go, add_attacks_line]
  | r :: rest, i, n + 1 => by
    simpa [add_attacks_go] using add_attacks_go_fields swapFn si ioe rest (i + 1) n

/-- `add_attacks_go` preserves the number of lines. -/
theorem add_attacks_go_length (swapFn : Nat → List String → List String)
    (si ioe : Bool) : ∀ (h : List Record) (i : Nat),
    (add_attacks_go swapFn si ioe i h).length = h.length
  | [], _ => rfl
  | r :: rest, i => by
    simp [add_attacks_go, add_attacks_go_length swapFn si ioe rest (i + 1)]

/-- C9: `add_attacks` modifies only the alignment field: the list of records
keeps its length and, position by position, the input-sequence and
output-sequence fields are unchanged (so number and relative order of
records are preserved and no other field is touched), for every realised
outcome of the embedded swap calls. -/
theorem add_attacks_frame (swapFn : Nat → List String → List String)
    (si ioe : Bool) (heldout : List Record) :
    (add_attacks swapFn si ioe heldout).length = heldout.length ∧
    ∀ n : Nat,
      ((add_attacks swapFn si ioe heldout)[n]?).map Record.input =
        (heldout[n]?).map Record.input ∧
      ((add_attacks swapFn si ioe heldout)[n]?).map Record.output =
        (heldout[n]?).map Record.output :=
  ⟨add_attacks_go_length swapFn si ioe heldout 0,
   fun n => add_attacks_go_fields swapFn si ioe heldout 0 n⟩

/-- A list whose distinct values number exactly one is a non-empty constant
list, and conversely. -/
theorem dedup_length_one_iff (l : List String) :
    l.dedup.length = 1 ↔ ∃ v, l ≠ [] ∧ ∀ w ∈ l, w = v := by
  constructor
  · intro h
    rcases List.length_eq_one.mp h with ⟨a, ha⟩
    refine ⟨a, fun hnil => ?_, fun w hw => ?_⟩
    · rw [hnil] at ha
      simp at ha
    · have hmem : w ∈ l.dedup := List.mem_dedup.mpr hw
      rw [ha] at hmem
      simpa using hmem
  · rintro ⟨v, hne, hall⟩
    have hx : ∀ w ∈ l.dedup, w = v := fun w hw => hall w (List.mem_dedup.mp hw)
    have hnnil : l.dedup ≠ [] := fun h0 => hne ((List.dedup_eq_nil l).mp h0)
    rw [nodup_all_eq_singleton (List.nodup_dedup l) hnnil hx]
    rfl
where
  nodup_all_eq_singleton : ∀ {l : List String} {v : String}, l.Nodup →
      l ≠ [] → (∀ w ∈ l, w = v) → l = [v] := by
    intro l v hnd hne hall
    match l with
    | [] => exact absurd rfl hne
    | [x] => rw [hall x (by simp)]
    | x :: y :: ys =>
      have hx : x = v := hall x (by simp)
      have hy : y = v := hall y (by simp)
      have hmem : x ∈ y :: ys := by
        rw [hx, hy]
        exact List.mem_cons_self v ys
      exact absurd hmem (List.nodup_cons.mp hnd).1

/-- C6: `remove_doubles` drops exactly the records whose input interior
(all input tokens but the first and last) consists of a single distinct
token value, keeps every other record, and — being a filter — preserves the
relative order of the retained records (they form a sublist of the
original). -/
theorem remove_doubles_spec (heldout : List Record) :
    (remove_doubles heldout).Sublist heldout ∧
    ∀ line : Record, line ∈ remove_doubles heldout ↔
      line ∈ heldout ∧
        ¬ ∃ v, interiorOf line ≠ [] ∧ ∀ w ∈ interiorOf line, w = v := by
  refine ⟨List.filter_sublist _, fun line => ?_⟩
  simp only [remove_doubles, List.mem_filter, bne_iff_ne, ne_eq,
    dedup_length_one_iff]

/-- Element `k` of `List.range' s n`. -/
theorem range'_getD : ∀ (n s k : Nat), k < n →
    (List.range' s n).getD k 0 = s + k
  | 0, _, k, hk => absurd hk (Nat.not_lt_zero k)
  | n + 1, s, 0, _ => by simp [List.range']
  | n + 1, s, k + 1, hk => by
    simp only [List.range', List.getD_cons_succ]
    rw [range'_getD n (s + 1) k (Nat.lt_of_succ_lt_succ hk)]
    omega

/-- Success of the replay loop determines every produced token: the list
has one token per step, and the token of step `k` is the table selected by
the attention applied to the previous token. -/
theorem replayGo_spec (T : String → String → Option String)
    (input attn : List String) : ∀ (js : List Nat) (w : String)
    (rest : List String), replayGo T input attn js w = .ok rest →
    rest.length = js.length ∧
    ∀ k, k < js.length →
      ∃ tn, stepTable input attn (js.getD k 0) = .ok tn ∧
        rest[k]? = T tn ((w :: rest).getD k "")
  | [], w, rest, h => by
    simp only [replayGo] at h
    cases h
    exact ⟨rfl, fun k hk => absurd hk (by simp)⟩
  | j :: js, w, rest, h => by
    simp only [replayGo] at h
    cases hst : stepTable input attn j with
    | error e => simp only [hst] at h; exact Except.noConfusion h
    | ok tn =>
      simp only [hst] at h
      cases hTw : T tn w with
      | none => simp only [hTw] at h; exact Except.noConfusion h
      | some next =>
        simp only [hTw] at h
        cases hrec : replayGo T input attn js next with
        | error e => simp only [hrec] at h; exact Except.noConfusion h
        | ok rest2 =>
          simp only [hrec] at h
          cases h
          obtain ⟨hlen, hspec⟩ := replayGo_spec T input attn js next rest2 hrec
          refine ⟨by simp [hlen], fun k hk => ?_⟩
          cases k with
          | zero => exact ⟨tn, by simpa using hst, by simp [hTw]⟩
          | succ k =>
            obtain ⟨tn2, hstep2, hval2⟩ := hspec k (by simpa using hk)
            exact ⟨tn2, by simpa using hstep2, by simpa using hval2⟩

/-- C4: refuted as stated; a nearby statement holds.  The claim says the new
output sequence has the same length as the original output sequence, but the
source builds `new_output` with one token per input position from 1 to
`len(input_sequence) - 2`, regardless of the original output length.  The
record below (well formed, kept by the filter, with a perturbed-looking
alignment) has an output of 2 tokens while replay succeeds with 3. -/
theorem update_output_length_counterexample :
    new_output_tokens tablesEx4 ⟨"A t u B", "v1 v2", "0 2 1 3"⟩ =
      .ok ["v1", "v2", "v3"] ∧
    (["v1", "v2", "v3"] : List String).length ≠
      (splitWS (Record.mk "A t u B" "v1 v2" "0 2 1 3").output).length :=
  ⟨rfl, by decide⟩

/-- C4 amended: when `update_output` succeeds on a record, the new output
has `len(input) - 2 + 1` tokens (equal to the original output length exactly
when the record satisfies the data-model invariant `len(output) =
len(input) - 1`), its first token is the original first output token, and
the token at each position `j` from 1 to `len(input) - 2` is the value of
the table selected by `input_sequence[int(attention[j])]` at the previous
new token. -/
theorem update_output_replay_spec (T : String → String → Option String)
    (line : Record) (toks : List String)
    (h : new_output_tokens T line = .ok toks) :
    toks.length = ((splitWS line.input).length - 2) + 1 ∧
    toks.head? = (splitWS line.output).head? ∧
    ∀ j, 1 ≤ j → j < toks.length →
      ∃ tn, stepTable (splitWS line.input) (splitWS line.attention) j =
          .ok tn ∧
        toks[j]? = T tn (toks.getD (j - 1) "") := by
  simp only [new_output_tokens] at h
  cases hw : (splitWS line.output).head? with
  | none => simp only [hw] at h; exact Except.noConfusion h
  | some word =>
    simp only [hw] at h
    cases hrec : replayGo T (splitWS line.input) (splitWS line.attention)
        (List.range' 1 ((splitWS line.input).length - 2)) word with
    | error e => simp only [hrec] at h; exact Except.noConfusion h
    | ok rest =>
      simp only [hrec] at h
      cases h
      obtain ⟨hlen, hspec⟩ := replayGo_spec T (splitWS line.input)
        (splitWS line.attention) _ word rest hrec
      have hlen2 : rest.length = (splitWS line.input).length - 2 := by
        simpa [List.length_range'] using hlen
      refine ⟨by simp [hlen2], by simp [hw], fun j hj1 hjlt => ?_⟩
      obtain ⟨k, rfl⟩ : ∃ k, j = k + 1 := ⟨j - 1, by omega⟩
      have hk : k < (List.range' 1 ((splitWS line.input).length - 2)).length := by
        simp only [List.length_range']
        simp only [List.length_cons, hlen2] at hjlt
        omega
      obtain ⟨tn, hstep, hval⟩ := hspec k hk
      rw [range'_getD _ 1 k (by simpa [List.length_range'] using hk)] at hstep
      refine ⟨tn, by simpa [Nat.add_comm 1 k] using hstep, ?_⟩
      simpa using hval

theorem update_output_replay_spec_witness :
    (["v1", "v2", "v3"] : List String).head? =
      (splitWS (Record.mk "A t u B" "v1 v2" "0 2 1 3").output).head? :=
  (update_output_replay_spec tablesEx4 ⟨"A t u B", "v1 v2", "0 2 1 3"⟩
    ["v1", "v2", "v3"] rfl).2.1

/-- C10: the replayed output of a record depends only on its input
sequence, its alignment, its first output token and the tables: two records
agreeing on those (whatever their remaining output tokens) replay to the
same result, and the replay is a pure function of them. -/
theorem update_output_noninterference (T : String → String → Option String)
    (r1 r2 : Record) (hin : r1.input = r2.input)
    (hat : r1.attention = r2.attention)
    (hout : (splitWS r1.output).head? = (splitWS r2.output).head?) :
    new_output_tokens T r1 = new_output_tokens T r2 := by
  simp only [new_output_tokens]
  rw [hin, hat, hout]

theorem update_output_noninterference_witness :
    new_output_tokens tablesEx4 ⟨"A t u B", "v1 v2", "0 2 1 3"⟩ =
      new_output_tokens tablesEx4 ⟨"A t u B", "v1 zz qq", "0 2 1 3"⟩ :=
  update_output_noninterference tablesEx4
    ⟨"A t u B", "v1 v2", "0 2 1 3"⟩ ⟨"A t u B", "v1 zz qq", "0 2 1 3"⟩
    rfl rfl rfl

theorem remove_doubles_spec_witness :
    (⟨"w0 t u w3", "", ""⟩ : Record) ∈
      remove_doubles [⟨"w0 w w w3", "", ""⟩, ⟨"w0 t u w3", "", ""⟩] :=
  ((remove_doubles_spec [⟨"w0 w w w3", "", ""⟩, ⟨"w0 t u w3", "", ""⟩]).2
      ⟨"w0 t u w3", "", ""⟩).mpr
    ⟨by decide, fun ⟨v, _, hall⟩ =>
      absurd ((hall "t" (by decide)).trans (hall "u" (by decide)).symm)
        (by decide)⟩

/-- When every attention-indexing step goes through, any error of the replay
loop is the missing-key error, and the loop errors exactly when the chain of
lookups is undefined. -/
theorem replayGo_error (T : String → String → Option String)
    (input attn : List String) : ∀ (js : List Nat) (w : String),
    (∀ j ∈ js, stepOk input attn j = true) →
    (∀ e, replayGo T input attn js w = .error e → e = .missingKey) ∧
    ((∃ e, replayGo T input attn js w = .error e) ↔
      chainWord T input attn js w = none)
  | [], w, _ => by
    refine ⟨fun e he => ?_, ?_, ?_⟩
    · simp only [replayGo] at he
      exact Except.noConfusion he
    · rintro ⟨e, he⟩
      simp only [replayGo] at he
      exact Except.noConfusion he
    · intro hnone
      simp only [chainWord] at hnone
      exact Option.noConfusion hnone
  | j :: js, w, hok => by
    have hj := hok j (List.mem_cons_self j js)
    cases hst : stepTable input attn j with
    | error e =>
      simp only [stepOk, hst] at hj
      exact Bool.noConfusion hj
    | ok tn =>
      cases hTw : T tn w with
      | none =>
        refine ⟨fun e he => ?_, ?_, ?_⟩
        · simp only [replayGo, hst, hTw] at he
          cases he
          rfl
        · intro _
          simp [chainWord, hst, hTw]
        · intro _
          exact ⟨.missingKey, by simp [replayGo, hst, hTw]⟩
      | some next =>
        obtain ⟨IH1, IH2⟩ := replayGo_error T input attn js next
          (fun j2 hj2 => hok j2 (List.mem_cons_of_mem j hj2))
        refine ⟨fun e he => ?_, ?_⟩
        · simp only [replayGo, hst, hTw] at he
          cases hrec : replayGo T input attn js next with
          | error e2 =>
            simp only [hrec] at he
            cases he
            exact IH1 _ hrec
          | ok rest =>
            simp only [hrec] at he
            exact Except.noConfusion he
        · have hcw : chainWord T input attn (j :: js) w =
              chainWord T input attn js next := by
            simp [chainWord, hst, hTw]
          rw [hcw, ← IH2]
          constructor
          · rintro ⟨e, he⟩
            simp only [replayGo, hst, hTw] at he
            cases hrec : replayGo T input attn js next with
            | error e2 =>
              exact ⟨e2, rfl⟩
            | ok rest =>
              simp only [hrec] at he
              exact Except.noConfusion he
          · rintro ⟨e, he⟩
            exact ⟨e, by simp [replayGo, hst, hTw, he]⟩

/-- Where an undefined chain breaks: some prefix of the steps still
succeeds, and the table selected at the next step has no entry for the word
reached. -/
theorem chainWord_none_iff (T : String → String → Option String)
    (input attn : List String) : ∀ (js : List Nat) (w : String),
    (∀ j ∈ js, stepOk input attn j = true) →
    (chainWord T input attn js w = none ↔
      ∃ k, k < js.length ∧ ∃ w2 tn,
        chainWord T input attn (js.take k) w = some w2 ∧
        stepTable input attn (js.getD k 0) = .ok tn ∧ T tn w2 = none)
  | [], w, _ => by
    simp [chainWord]
  | j :: js, w, hok => by
    have hj := hok j (List.mem_cons_self j js)
    cases hst : stepTable input attn j with
    | error e =>
      simp only [stepOk, hst] at hj
      exact Bool.noConfusion hj
    | ok tn =>
      cases hTw : T tn w with
      | none =>
        constructor
        · intro _
          exact ⟨0, by simp, w, tn, by simp [chainWord], by simpa using hst, hTw⟩
        · intro _
          simp [chainWord, hst, hTw]
      | some next =>
        have hcw : chainWord T input attn (j :: js) w =
            chainWord T input attn js next := by
          simp [chainWord, hst, hTw]
        rw [hcw, chainWord_none_iff T input attn js next
          (fun j2 hj2 => hok j2 (List.mem_cons_of_mem j hj2))]
        constructor
        · rintro ⟨k, hk, w2, tn2, hchain, hstep2, hT⟩
          refine ⟨k + 1, by simpa using Nat.succ_lt_succ hk, w2, tn2, ?_, ?_, hT⟩
          · simp only [List.take_succ_cons, chainWord, hst, hTw, Option.some_bind]
            exact hchain
          · simpa using hstep2
        · rintro ⟨k, hk, w2, tn2, hchain, hstep2, hT⟩
          cases k with
          | zero =>
            simp only [List.take_zero, chainWord] at hchain
            cases hchain
            rw [List.getD_cons_zero, hst] at hstep2
            cases hstep2
            rw [hTw] at hT
            exact Option.noConfusion hT
          | succ k =>
            refine ⟨k, by simpa using hk, w2, tn2, ?_, by simpa using hstep2, hT⟩
            simp only [List.take_succ_cons, chainWord, hst, hTw,
              Option.some_bind] at hchain
            exact hchain

/-- Folding the table file never creates entries for a table name that does
not occur as field 1 of any mapping: looking it up falls through to the
empty default, as with `defaultdict(dict)`. -/
theorem load_tables_go_unknown : ∀ (ms : List (List String))
    (tables T : String → String → Option String) (name : String),
    load_tables_go tables ms = some T → (∀ w, tables name w = none) →
    name ∉ ms.filterMap (fun m => m.get? 1) → ∀ w, T name w = none
  | [], tables, T, name, h, hbase, _, w => by
    simp only [load_tables_go] at h
    cases h
    exact hbase w
  | m :: ms, tables, T, name, h, hbase, hnotin, w => by
    simp only [load_tables_go] at h
    cases h1 : m.get? 1 with
    | none => simp only [h1] at h; exact Option.noConfusion h
    | some tn =>
      cases h0 : m.get? 0 with
      | none => simp only [h1, h0] at h; exact Option.noConfusion h
      | some k =>
        cases h4 : m.get? 4 with
        | none => simp only [h1, h0, h4] at h; exact Option.noConfusion h
        | some v =>
          simp only [h1, h0, h4] at h
          have hne : name ≠ tn := fun heq => hnotin
            (List.mem_filterMap.mpr ⟨m, List.mem_cons_self m ms, by rw [h1, heq]⟩)
          have hbase2 : ∀ w2, updTable tables tn k v name w2 = none := by
            intro w2
            simp only [updTable]
            rw [if_neg (fun hc => hne hc.1)]
            exact hbase w2
          have hnotin2 : name ∉ ms.filterMap (fun m2 => m2.get? 1) := by
            intro hmem
            obtain ⟨m2, hm2, he⟩ := List.mem_filterMap.mp hmem
            exact hnotin (List.mem_filterMap.mpr
              ⟨m2, List.mem_cons_of_mem m hm2, he⟩)
          exact load_tables_go_unknown ms (updTable tables tn k v) T name h
            hbase2 hnotin2 w

/-- C8: during output replay the only uncaught exception, for a record whose
alignment indexes correctly into the input, is the missing-key lookup: any
error is the `KeyError` of `table[word]`, and an error occurs exactly when
the lookup chain reaches a word that is absent from the table selected at
the following step.  Moreover `tables` is a `defaultdict`, so a table name
that never occurs as field 1 of the training mappings does not itself
raise: it yields the empty table, in which every word lookup misses. -/
theorem update_output_error_characterization :
    (∀ (T : String → String → Option String) (line : Record),
      splitWS line.output ≠ [] →
      (∀ j ∈ List.range' 1 ((splitWS line.input).length - 2),
        stepOk (splitWS line.input) (splitWS line.attention) j = true) →
      (∀ e, new_output_tokens T line = .error e → e = .missingKey) ∧
      ((∃ e, new_output_tokens T line = .error e) ↔
        ∃ k, k < (List.range' 1 ((splitWS line.input).length - 2)).length ∧
          ∃ w2 tn,
            chainWord T (splitWS line.input) (splitWS line.attention)
              ((List.range' 1 ((splitWS line.input).length - 2)).take k)
              ((splitWS line.output).headD "") = some w2 ∧
            stepTable (splitWS line.input) (splitWS line.attention)
              ((List.range' 1 ((splitWS line.input).length - 2)).getD k 0) =
              .ok tn ∧
            T tn w2 = none)) ∧
    (∀ (lines : List String) (T : String → String → Option String)
      (name : String), load_tables lines = some T →
      name ∉ tableIds lines → ∀ w, T name w = none) := by
  constructor
  · intro T line hne hok
    cases hsplit : splitWS line.output with
    | nil => exact absurd hsplit hne
    | cons w0 ws =>
      obtain ⟨hmk, hiff⟩ := replayGo_error T (splitWS line.input)
        (splitWS line.attention)
        (List.range' 1 ((splitWS line.input).length - 2)) w0 hok
      have herr : ∀ e, new_output_tokens T line = .error e ↔
          replayGo T (splitWS line.input) (splitWS line.attention)
            (List.range' 1 ((splitWS line.input).length - 2)) w0 =
            .error e := by
        intro e
        constructor
        · intro he
          simp only [new_output_tokens, hsplit, List.head?_cons] at he
          cases hrec : replayGo T (splitWS line.input) (splitWS line.attention)
              (List.range' 1 ((splitWS line.input).length - 2)) w0 with
          | error e2 => simp only [hrec] at he; exact he
          | ok rest => simp only [hrec] at he; exact Except.noConfusion he
        · intro hrec
          simp only [new_output_tokens, hsplit, List.head?_cons, hrec]
      constructor
      · intro e he
        exact hmk e ((herr e).mp he)
      · simp only [List.headD_cons]
        constructor
        · rintro ⟨e, he⟩
          exact (chainWord_none_iff T (splitWS line.input)
            (splitWS line.attention) _ w0 hok).mp (hiff.mp ⟨e, (herr e).mp he⟩)
        · intro hex
          obtain ⟨e, he⟩ := hiff.mpr ((chainWord_none_iff T (splitWS line.input)
            (splitWS line.attention) _ w0 hok).mpr hex)
          exact ⟨e, (herr e).mpr he⟩
  · intro lines T name h hnot w
    exact load_tables_go_unknown ((lines.take 64).map splitWS)
      (fun _ _ => none) T name h (fun _ => rfl) hnot w

theorem update_output_error_characterization_witness :
    ∃ e, new_output_tokens tablesEx4 ⟨"A t u B", "v9 v2", "0 2 1 3"⟩ =
      Except.error e :=
  ((update_output_error_characterization.1 tablesEx4
      ⟨"A t u B", "v9 v2", "0 2 1 3"⟩ (by decide) (by decide)).2).mpr
    ⟨0, by decide, "v9", "u", rfl, rfl, rfl⟩
